import Mathlib

/-!
# Verification of the sandbox adapter layer (labring/agent-sandbox-adaptor)

Shallow embedding of the TypeScript sandbox-adapter core:

* `BaseSandboxAdapter` (src/adapters/BaseSandboxAdapter.ts): batch file
  operations (`readFiles`, `writeFiles`, `deleteFiles`), `waitUntilReady`,
  `executeStream`, `executeBackground`/`interrupt`, `readFileStream`,
  `writeFileStream`, `ping`.
* `MinimalProviderAdapter.pause`/`resume`.
* Provider-level `ping` of `FastGPTSandboxAdapter`/`OpenSandboxAdapter`.

The `CommandPolyfillService` implementation is not part of the given source
tree (only its callers and the spec describe it); the few polyfill operations
the claims depend on are modelled from the spec and marked
`Modelled from the spec:` in their doc comments.

Effectful TypeScript is embedded as pure functions over explicit oracles:
the outcome of each remote shell command is an argument
(`exec : PolyCmd → Except Err (List Nat)`), and every operation returns the
list of commands it issued alongside its result, so that statements about
"commands issued before/after X" are expressible.
-/

namespace Sandbox

/-- Errors thrown by item-level operations are carried as plain messages. -/
abbrev Err := String

/-- Abstract shell commands issued by the polyfill engine against the remote
sandbox.  `rangeRead path start end?` is the offset+length extraction command
of a range read (`end? = none` meaning "to end of file"); `fullRead` is an
unranged whole-file read; `write` carries the full payload of a single write
command; `delete` removes one path; `stat` is the file-size query issued by
`getFileInfo`. -/
inductive PolyCmd where
  | rangeRead (path : String) (start : Nat) (stop : Option Nat)
  | fullRead (path : String)
  | write (path : String) (data : List Nat)
  | delete (path : String)
  | stat (path : String)
  deriving DecidableEq, Repr

/-- Outcome oracle for issued commands: for a read command the decoded bytes,
for other commands a don't-care payload; `.error` is a failed command. -/
abbrev ExecOracle := PolyCmd → Except Err (List Nat)

/-! ## Error taxonomy (src/errors, as constructed by the adapters) -/

/-- The error `FeatureNotSupportedError(message, feature, provider)` as constructed at
every `throw new FeatureNotSupportedError(...)` site of the adapters. -/
structure FeatureNotSupportedError where
  message : String
  feature : String
  provider : String
  deriving DecidableEq, Repr

/-- The error `SandboxReadyTimeoutError(sandboxId, timeoutMs)` as constructed by
`BaseSandboxAdapter.waitUntilReady`. -/
structure SandboxReadyTimeoutError where
  sandboxId : String
  timeoutMs : Nat
  deriving DecidableEq, Repr

/-- The record `ExecuteResult = {stdout, stderr, exitCode, truncated}` (src/types). -/
structure ExecuteResult where
  stdout : String
  stderr : String
  exitCode : Int
  truncated : Bool := false
  deriving DecidableEq, Repr

/-! ## waitUntilReady (BaseSandboxAdapter.waitUntilReady)

```ts
const startTime = Date.now();
const checkInterval = 1000;
while (Date.now() - startTime < timeoutMs) {
  const isReady = await this.ping();
  if (isReady) return;
  await this.sleep(checkInterval);
}
throw new SandboxReadyTimeoutError(this.id, timeoutMs);
```

Time model: `ping()` is instantaneous and only `sleep(1000)` advances the
clock, so the `k`-th ping happens at elapsed time `k * 1000` ms.  The ping
outcomes are the oracle `pings : Nat → Bool` (`pings k` = result of the
`k`-th call).  The function also returns the number of `ping()` calls made. -/

def waitUntilReadyLoop (pings : Nat → Bool) (id : String) (timeoutMs : Nat)
    (k : Nat) : Except SandboxReadyTimeoutError Unit × Nat :=
  if k * 1000 < timeoutMs then
    if pings k then (.ok (), k + 1)
    else waitUntilReadyLoop pings id timeoutMs (k + 1)
  else (.error ⟨id, timeoutMs⟩, k)
termination_by timeoutMs - k * 1000
decreasing_by omega

/-- The method `BaseSandboxAdapter.waitUntilReady(timeoutMs)` (default 120000 at the
call sites); returns the loop result and the number of pings issued. -/
def waitUntilReady (pings : Nat → Bool) (id : String) (timeoutMs : Nat) :
    Except SandboxReadyTimeoutError Unit × Nat :=
  waitUntilReadyLoop pings id timeoutMs 0

/-! ## executeStream (BaseSandboxAdapter.executeStream) -/

/-- Which optional handlers the caller registered
(`StreamHandlers = {onStdout?, onStderr?, onComplete?, onError?}`). -/
structure StreamHandlersPresent where
  onStdout : Bool
  onStderr : Bool
  onComplete : Bool
  onError : Bool
  deriving DecidableEq, Repr

/-- Observable events of `executeStream`: the single buffered `execute`
call, then the synthesized handler invocations. -/
inductive StreamEvent where
  | exec (cmd : String)
  | stdout (text : String)
  | stderr (text : String)
  | complete (r : ExecuteResult)
  deriving DecidableEq, Repr

def StreamEvent.isExec : StreamEvent → Bool
  | .exec _ => true
  | _ => false

def StreamEvent.isStdout : StreamEvent → Bool
  | .stdout _ => true
  | _ => false

def StreamEvent.isStderr : StreamEvent → Bool
  | .stderr _ => true
  | _ => false

def StreamEvent.isComplete : StreamEvent → Bool
  | .complete _ => true
  | _ => false

/-- The method `BaseSandboxAdapter.executeStream(command, handlers)`: one full
`execute`, then `onStdout`/`onStderr` only when registered and that channel
is a non-empty (truthy) string, then `onComplete` when registered. -/
def executeStreamModel (execute : String → ExecuteResult) (command : String)
    (h : StreamHandlersPresent) : List StreamEvent :=
  let result := execute command
  [StreamEvent.exec command]
    ++ (if h.onStdout && result.stdout != "" then [StreamEvent.stdout result.stdout] else [])
    ++ (if h.onStderr && result.stderr != "" then [StreamEvent.stderr result.stderr] else [])
    ++ (if h.onComplete then [StreamEvent.complete result] else [])

/-! ## Unsupported operations (C7) -/

/-- The method `BaseSandboxAdapter.executeBackground`: always throws. -/
def baseExecuteBackground (provider : String) :
    Except FeatureNotSupportedError Unit :=
  .error ⟨"Background execution not supported by this provider",
    "executeBackground", provider⟩

/-- The method `BaseSandboxAdapter.interrupt`: always throws. -/
def baseInterrupt (provider : String) (_sessionId : String) :
    Except FeatureNotSupportedError Unit :=
  .error ⟨"Command interruption not supported by this provider",
    "interrupt", provider⟩

/-- The method `MinimalProviderAdapter.pause`: always throws. -/
def minimalPause : Except FeatureNotSupportedError Unit :=
  .error ⟨"Pause not supported by minimal provider", "pause", "minimal"⟩

/-- The method `MinimalProviderAdapter.resume`: always throws. -/
def minimalResume : Except FeatureNotSupportedError Unit :=
  .error ⟨"Resume not supported by minimal provider", "resume", "minimal"⟩

/-- The feature field of a rejected call, `none` on success. -/
def errFeature {α : Type} : Except FeatureNotSupportedError α → Option String
  | .error e => some e.feature
  | .ok _ => none

/-- The provider field of a rejected call, `none` on success. -/
def errProvider {α : Type} : Except FeatureNotSupportedError α → Option String
  | .error e => some e.provider
  | .ok _ => none

/-! ## ping (C6) -/

/-- The methods `FastGPTSandboxAdapter.ping` / `OpenSandboxAdapter.ping`:
`try { return await sdk health call } catch { return false }`.
`health` is the outcome of the underlying SDK call (`.error` = it threw). -/
def providerPing (health : Except Err Bool) : Bool :=
  match health with
  | .ok b => b
  | .error _ => false

/-- Modelled from the spec: `CommandPolyfillService.ping` is not under
`src/`; per §4.2 it "issues one minimal command with a fixed expected string
and returns `true` only on an exact (trimmed) match — `ping` never throws,
any failure becomes `false`" (the mock adapter answers `echo "PING"` with
stdout `PING`).  `outcome` is the result of that one command. -/
def polyfillPing (outcome : Except Err ExecuteResult) : Bool :=
  match outcome with
  | .ok r => r.stdout.trim == "PING"
  | .error _ => false

/-- The method `BaseSandboxAdapter.ping`: `requirePolyfillService` throws
`FeatureNotSupportedError` when `polyfillService` is `undefined`, otherwise
the polyfill ping runs.  `svc` is `none` when the polyfill service was
removed, `some outcome` the outcome of the polyfill's single command. -/
def basePing (provider : String) (svc : Option (Except Err ExecuteResult)) :
    Except FeatureNotSupportedError Bool :=
  match svc with
  | none => .error ⟨"Health check not supported by this provider", "ping", provider⟩
  | some outcome => .ok (polyfillPing outcome)

/-! ## JavaScript string primitives used by the range parser

`options.range.split('-')` and `Number.parseInt(value, 10)` are embedded
over `List Char` (the character data of a JS string). -/

/-- JS `String.prototype.split` with a single-character separator:
`"a-b-c".split('-') = ["a","b","c"]`, `"".split('-') = [""]`,
`"-".split('-') = ["",""]`.  Always returns a non-empty list. -/
def jsSplit (sep : Char) : List Char → List (List Char)
  | [] => [[]]
  | c :: rest =>
    if c = sep then [] :: jsSplit sep rest
    else
      match jsSplit sep rest with
      | [] => [[c]]
      | h :: t => (c :: h) :: t

/-- JS whitespace recognized by `parseInt` (ASCII subset). -/
def jsIsSpace (c : Char) : Bool :=
  c = ' ' || c = '\t' || c = '\n' || c = '\r' ||
    c = Char.ofNat 11 || c = Char.ofNat 12

/-- Decimal digit test. -/
def isDigitChar (c : Char) : Bool :=
  48 ≤ c.toNat && c.toNat ≤ 57

/-- Value of a list of decimal digits read left to right. -/
def digitsVal (cs : List Char) : Nat :=
  cs.foldl (fun acc c => acc * 10 + (c.toNat - 48)) 0

/-- Longest decimal-digit prefix, `none` when there is none
(`parseInt` returns `NaN` exactly in the `none` case). -/
def parseLeadingDigits (cs : List Char) : Option Nat :=
  let ds := cs.takeWhile isDigitChar
  if ds.isEmpty then none else some (digitsVal ds)

/-- JS `Number.parseInt(s, 10)`: skip leading whitespace, an optional sign,
then the longest digit prefix; `none` models `NaN`. -/
def jsParseInt (s : List Char) : Option Int :=
  match s.dropWhile jsIsSpace with
  | [] => none
  | c :: rest =>
    if c = '-' then (parseLeadingDigits rest).map (fun n => -(n : Int))
    else if c = '+' then (parseLeadingDigits rest).map (fun n => (n : Int))
    else (parseLeadingDigits (c :: rest)).map (fun n => (n : Int))

/-- Decimal digits of a natural number (the JS template-literal rendering
of a number, as in `` `${offset}-${end}` ``). -/
def natDigits (n : Nat) : List Char :=
  if n < 10 then [Char.ofNat (48 + n)]
  else natDigits (n / 10) ++ [Char.ofNat (48 + n % 10)]
decreasing_by exact Nat.div_lt_self (by omega) (by omega)

/-! ## Polyfill file operations

`CommandPolyfillService` is not under `src/`; the operations below are
modelled from the spec (§4.2) at the granularity of the commands they
issue.  Each returns its result together with the list of issued commands. -/

/-- Modelled from the spec: `CommandPolyfillService.readFile` — a whole-file
read issues one read command and decodes its output. -/
def readFileSpec (exec : ExecOracle) (path : String) :
    Except Err (List Nat) × List PolyCmd :=
  (exec (.fullRead path), [.fullRead path])

/-- Modelled from the spec: `CommandPolyfillService.readFileRange` — "both
values must parse as non-negative integers with `start < end` when both are
present, else the call fails validation before any command is issued.
Ranges are implemented as an offset+length extraction command." -/
def readFileRangeSpec (exec : ExecOracle) (path : String) (start : Int)
    (stop : Option Int) : Except Err (List Nat) × List PolyCmd :=
  if decide (0 ≤ start) && stop.all (fun e => decide (start < e)) then
    let cmd := PolyCmd.rangeRead path start.toNat (stop.map Int.toNat)
    (exec cmd, [cmd])
  else
    (.error "Invalid range arguments", [])

/-- Modelled from the spec: `CommandPolyfillService.writeFile` — one write
command per call; on success the decoded length is checked against the
expected size and the byte count written is reported. -/
def writeFileSpec (exec : ExecOracle) (path : String) (data : List Nat) :
    Except Err Nat × List PolyCmd :=
  (match exec (.write path data) with
   | .ok _ => .ok data.length
   | .error e => .error e,
   [.write path data])

/-- Modelled from the spec: `CommandPolyfillService.writeTextFile` — the
text payload is encoded to bytes (`encode` abstracts the codec) and written
with a single write command. -/
def writeTextFileSpec (exec : ExecOracle) (encode : List Char → List Nat)
    (path : String) (s : List Char) : Except Err Nat × List PolyCmd :=
  writeFileSpec exec path (encode s)

/-- Per-item result of the polyfill's `deleteFiles`. -/
structure PolyDeleteResult where
  path : String
  success : Bool
  error : Option Err
  deriving DecidableEq, Repr

/-- Modelled from the spec: `CommandPolyfillService.deleteFiles` — "one
command per item, executed sequentially ...; each item's success/failure is
independent and never aborts the rest of the batch"; a failed delete yields
`success = false` with a non-null error, never a thrown error. -/
def deleteFilesSpec (exec : ExecOracle) :
    List String → List PolyDeleteResult × List PolyCmd
  | [] => ([], [])
  | p :: rest =>
    let item : PolyDeleteResult :=
      match exec (.delete p) with
      | .ok _ => ⟨p, true, none⟩
      | .error e => ⟨p, false, some e⟩
    let (items, tr) := deleteFilesSpec exec rest
    (item :: items, .delete p :: tr)

/-! ## Batch operations of BaseSandboxAdapter -/

/-- The record `FileReadResult = {path, content, error}`. -/
structure FileReadResult where
  path : String
  content : List Nat
  error : Option Err
  deriving DecidableEq, Repr

/-- The `try` body of one `readFiles` loop iteration: parse the optional
range string exactly as the source does, then call the polyfill.

```ts
if (options?.range) {
  const [startValue, endValue] = options.range.split('-');
  const start = Number.parseInt(startValue, 10);
  const end = endValue ? Number.parseInt(endValue, 10) : undefined;
  if (Number.isNaN(start) || (endValue && Number.isNaN(end as number))) {
    throw new Error(`Invalid range: ${options.range}`);
  }
  content = await polyfillService.readFileRange(path, start, end);
} else {
  content = await polyfillService.readFile(path);
}
``` -/
def readItemCore (exec : ExecOracle) (range? : Option String) (path : String) :
    Except Err (List Nat) × List PolyCmd :=
  match range? with
  | none => readFileSpec exec path
  | some r =>
    let parts := jsSplit '-' r.data
    let startValue := parts.headI
    let endValue := parts[1]?
    match jsParseInt startValue with
    | none => (.error ("Invalid range: " ++ r), [])
    | some start =>
      match endValue with
      | none => readFileRangeSpec exec path start none
      | some ev =>
        if ev.isEmpty then readFileRangeSpec exec path start none
        else
          match jsParseInt ev with
          | none => (.error ("Invalid range: " ++ r), [])
          | some stop => readFileRangeSpec exec path start (some stop)

/-- One `readFiles` loop iteration: success pushes `{path, content,
error: null}`, the `catch` branch pushes `{path, new Uint8Array(), error}`. -/
def readItem (exec : ExecOracle) (range? : Option String) (path : String) :
    FileReadResult × List PolyCmd :=
  let (r, tr) := readItemCore exec range? path
  (match r with
   | .ok content => ⟨path, content, none⟩
   | .error e => ⟨path, [], some e⟩,
   tr)

/-- The method `BaseSandboxAdapter.readFiles(paths, options)`: sequential loop over the
input paths, one result pushed per path. -/
def readFilesModel (exec : ExecOracle) (range? : Option String) :
    List String → List FileReadResult × List PolyCmd
  | [] => ([], [])
  | p :: rest =>
    let (res, tr) := readItem exec range? p
    let (results, trs) := readFilesModel exec range? rest
    (res :: results, tr ++ trs)

/-- The JS union `string | Uint8Array | ArrayBuffer | Blob |
ReadableStream<Uint8Array>` accepted as `FileWriteEntry.data`. -/
inductive WriteData where
  | text (s : List Char)
  | bytes (b : List Nat)
  | arrayBuffer (b : List Nat)
  | blob (b : List Nat)
  | stream (chunks : List (List Nat))
  deriving DecidableEq, Repr

/-- The record `FileWriteEntry = {path, data}`. -/
structure FileWriteEntry where
  path : String
  data : WriteData
  deriving DecidableEq, Repr

/-- The record `FileWriteResult = {path, bytesWritten, error}`. -/
structure FileWriteResult where
  path : String
  bytesWritten : Nat
  error : Option Err
  deriving DecidableEq, Repr

/-- The chunk-combining loop of the `ReadableStream` branch of `writeFiles`
(and of `writeFileStream`): allocate `totalLength` and copy each chunk at
its running offset — the concatenation of the chunks in arrival order. -/
def combineChunks (chunks : List (List Nat)) : List Nat :=
  chunks.foldl (fun acc c => acc ++ c) []

/-- The `try` body of one `writeFiles` loop iteration: dispatch on the
payload type; a stream payload is fully drained into one buffer before a
single `writeFile` call. -/
def writeItemCore (exec : ExecOracle) (encode : List Char → List Nat)
    (entry : FileWriteEntry) : Except Err Nat × List PolyCmd :=
  match entry.data with
  | .text s => writeTextFileSpec exec encode entry.path s
  | .bytes b => writeFileSpec exec entry.path b
  | .arrayBuffer b => writeFileSpec exec entry.path b
  | .blob b => writeFileSpec exec entry.path b
  | .stream chunks => writeFileSpec exec entry.path (combineChunks chunks)

/-- One `writeFiles` loop iteration: success pushes `{path, bytesWritten,
error: null}`, the `catch` branch pushes `{path, bytesWritten: 0, error}`. -/
def writeItem (exec : ExecOracle) (encode : List Char → List Nat)
    (entry : FileWriteEntry) : FileWriteResult × List PolyCmd :=
  let (r, tr) := writeItemCore exec encode entry
  (match r with
   | .ok n => ⟨entry.path, n, none⟩
   | .error e => ⟨entry.path, 0, some e⟩,
   tr)

/-- The method `BaseSandboxAdapter.writeFiles(entries)`: sequential loop, one result
pushed per entry. -/
def writeFilesModel (exec : ExecOracle) (encode : List Char → List Nat) :
    List FileWriteEntry → List FileWriteResult × List PolyCmd
  | [] => ([], [])
  | e :: rest =>
    let (res, tr) := writeItem exec encode e
    let (results, trs) := writeFilesModel exec encode rest
    (res :: results, tr ++ trs)

/-- The record `FileDeleteResult = {path, success, error}`. -/
structure FileDeleteResult where
  path : String
  success : Bool
  error : Option Err
  deriving DecidableEq, Repr

/-- The method `BaseSandboxAdapter.deleteFiles(paths)`: delegates wholesale to the
polyfill and maps each item to `{path, success, error: r.error || null}`. -/
def deleteFilesModel (exec : ExecOracle) (paths : List String) :
    List FileDeleteResult × List PolyCmd :=
  let (rs, tr) := deleteFilesSpec exec paths
  (rs.map (fun r => ⟨r.path, r.success, r.error⟩), tr)

/-! ## Streaming operations -/

/-- The fixed streaming window: `const chunkSize = 64 * 1024`. -/
def chunkSize : Nat := 64 * 1024

/-- The range string `` `${offset}-${end}` `` built by `readFileStream`. -/
def rangeStr (s e : Nat) : String :=
  ⟨natDigits s ++ '-' :: natDigits e⟩

/-- The `readChunk` closure of `readFileStream`: a one-path `readFiles`
call; a missing result or a per-item error is re-thrown. -/
def readChunkModel (exec : ExecOracle) (range? : Option String)
    (path : String) : Except Err (List Nat) × List PolyCmd :=
  let (results, tr) := readFilesModel exec range? [path]
  (match results with
   | [] => .error "No file result returned"
   | r :: _ =>
     match r.error with
     | some e => .error e
     | none => .ok r.content,
   tr)

/-- Prepend one yielded chunk (and the commands that produced it) to the
remainder of a streaming read. -/
def consStream (content : List Nat) (tr : List PolyCmd)
    (rest : List (List Nat) × Option Err × List PolyCmd) :
    List (List Nat) × Option Err × List PolyCmd :=
  (content :: rest.1, rest.2.1, tr ++ rest.2.2)

/-- The `for (let offset = 0; offset < size; offset += chunkSize)` loop of
`readFileStream` (with `end = min(offset + chunkSize, size)` inlined): one
range read per window, each chunk yielded in order; an error thrown by
`readChunk` ends the generator after the chunks already yielded.  Returns
(yielded chunks, terminal error if any, issued commands).  `fuel` keeps the
recursion structural; the wrapper `streamLoop` supplies `size - offset`,
an upper bound on the iteration count (the offset advances by
`chunkSize ≥ 1` per iteration), so the fuel never runs out. -/
def streamLoopGo (exec : ExecOracle) (path : String) (size : Nat) :
    Nat → Nat → List (List Nat) × Option Err × List PolyCmd
  | _, 0 => ([], none, [])
  | offset, fuel + 1 =>
    if offset < size then
      match readChunkModel exec
          (some (rangeStr offset (min (offset + chunkSize) size))) path with
      | (.error err, tr) => ([], some err, tr)
      | (.ok content, tr) =>
        consStream content tr
          (streamLoopGo exec path size (offset + chunkSize) fuel)
    else ([], none, [])

/-- The streaming-read loop started at `offset`. -/
def streamLoop (exec : ExecOracle) (path : String) (size offset : Nat) :
    List (List Nat) × Option Err × List PolyCmd :=
  streamLoopGo exec path size offset (size - offset)

/-- The method `BaseSandboxAdapter.readFileStream(path)`: first query the file size
via `getFileInfo` (one `stat` command; `sizeResult` is its outcome — `none`
when the query threw or returned no size), then either a single unranged
read or one range read per 64 KiB window. -/
def readFileStreamModel (exec : ExecOracle) (sizeResult : Option Nat)
    (path : String) : List (List Nat) × Option Err × List PolyCmd :=
  match sizeResult with
  | none =>
    let (r, tr) := readChunkModel exec none path
    match r with
    | .ok content => ([content], none, PolyCmd.stat path :: tr)
    | .error e => ([], some e, PolyCmd.stat path :: tr)
  | some n =>
    let (chunks, err?, tr) := streamLoop exec path n 0
    (chunks, err?, PolyCmd.stat path :: tr)

/-- The ascending window list the loop traverses:
`[(0, min c n), (c, min 2c n), ...)` until the offset reaches `n`
(`fuel` keeps the recursion structural, exactly as in `streamLoopGo`). -/
def rangesFromGo (size : Nat) : Nat → Nat → List (Nat × Nat)
  | _, 0 => []
  | offset, fuel + 1 =>
    if offset < size then
      (offset, min (offset + chunkSize) size)
        :: rangesFromGo size (offset + chunkSize) fuel
    else []

/-- The window list starting at `offset`. -/
def rangesFrom (size offset : Nat) : List (Nat × Nat) :=
  rangesFromGo size offset (size - offset)

/-- The issued windows of a full streaming read of an `n`-byte file. -/
def rangesFor (size : Nat) : List (Nat × Nat) := rangesFrom size 0

/-- Partition predicate `coversFrom n lo l`: the ranges `l` exactly partition `[lo, n)` in
ascending contiguous order, every window ends at `lo + chunkSize` (a full
64 KiB window) except that the final one may end early, exactly at `n`. -/
inductive coversFrom (n : Nat) : Nat → List (Nat × Nat) → Prop where
  | nil (lo : Nat) : n ≤ lo → coversFrom n lo []
  | cons (lo e : Nat) (rest : List (Nat × Nat)) : lo < e → e ≤ n →
      (e = lo + chunkSize ∨ e = n) → coversFrom n e rest →
      coversFrom n lo ((lo, e) :: rest)

/-- The method `BaseSandboxAdapter.writeFileStream(path, stream)`: drain the stream
into one buffer, then a single `writeFiles` call with that buffer. -/
def writeFileStreamModel (exec : ExecOracle) (path : String)
    (chunks : List (List Nat)) : List FileWriteResult × List PolyCmd :=
  writeFilesModel exec (fun _ => []) [⟨path, .bytes (combineChunks chunks)⟩]

/-- Bytes of a successful read outcome (empty for a failed one). -/
def okContent (x : Except Err (List Nat)) : List Nat :=
  match x with
  | .ok c => c
  | .error _ => []

/-- Modelled from the spec: the denotation of the synthesized commands over
a remote filesystem `fs` (spec §4.2 range reads and §8 range semantics) —
a range read of `[s, e)` returns exactly those bytes, an omitted end means
"to end of file", a whole-file read returns the full content, `stat`
reports the size; commands on missing paths fail. -/
def execOnFS (fs : String → Option (List Nat)) : ExecOracle := fun cmd =>
  match cmd with
  | .rangeRead p s stop =>
    match fs p with
    | none => .error "No such file"
    | some content =>
      match stop with
      | some e => .ok ((content.drop s).take (e - s))
      | none => .ok (content.drop s)
  | .fullRead p =>
    match fs p with
    | none => .error "No such file"
    | some content => .ok content
  | .write _ _ => .ok []
  | .delete p =>
    match fs p with
    | none => .error "No such file"
    | some _ => .ok []
  | .stat p =>
    match fs p with
    | none => .error "No such file"
    | some content => .ok [content.length]

/-- The all-failing oracle used to witness the failure-path claims. -/
def failOracle : ExecOracle := fun _ => .error "boom"

/-- A tiny concrete filesystem used by witnesses. -/
def fsW : String → Option (List Nat) := fun p =>
  if p = "f" then some [10, 11, 12, 13] else none

/-! ## Supporting lemmas -/

theorem readItem_path (exec : ExecOracle) (range? : Option String)
    (p : String) : ((readItem exec range? p).1).path = p := by
  unfold readItem
  rcases readItemCore exec range? p with ⟨r, tr⟩
  cases r <;> simp

theorem writeItem_path (exec : ExecOracle) (encode : List Char → List Nat)
    (e : FileWriteEntry) : ((writeItem exec encode e).1).path = e.path := by
  unfold writeItem
  rcases writeItemCore exec encode e with ⟨r, tr⟩
  cases r <;> simp

theorem readFilesModel_results (exec : ExecOracle) (range? : Option String) :
    ∀ paths : List String,
      (readFilesModel exec range? paths).1
        = paths.map (fun p => (readItem exec range? p).1)
  | [] => rfl
  | p :: rest => by
    simp only [readFilesModel, List.map_cons]
    rw [← readFilesModel_results exec range? rest]

theorem writeFilesModel_results (exec : ExecOracle)
    (encode : List Char → List Nat) :
    ∀ entries : List FileWriteEntry,
      (writeFilesModel exec encode entries).1
        = entries.map (fun e => (writeItem exec encode e).1)
  | [] => rfl
  | e :: rest => by
    simp only [writeFilesModel, List.map_cons]
    rw [← writeFilesModel_results exec encode rest]

theorem deleteFilesSpec_paths (exec : ExecOracle) :
    ∀ paths : List String,
      ((deleteFilesSpec exec paths).1).map (fun r => r.path) = paths
  | [] => rfl
  | p :: rest => by
    simp only [deleteFilesSpec]
    rcases h : exec (.delete p) with e | v <;>
      simp [deleteFilesSpec_paths exec rest]

/-! ## Claim theorems -/

/-- C1: for every batch operation (`readFiles`, `writeFiles`,
`deleteFiles`) and every input list, the result list has exactly one entry
per input, and the i-th result corresponds to the i-th input (equal length,
equal order, witnessed by the per-entry `path` projection). -/
theorem batchResultsAlignWithInputs (exec : ExecOracle)
    (encode : List Char → List Nat) (range? : Option String)
    (paths : List String) (entries : List FileWriteEntry)
    (dpaths : List String) :
    ((readFilesModel exec range? paths).1.length = paths.length
      ∧ (readFilesModel exec range? paths).1.map (fun r => r.path) = paths)
    ∧ ((writeFilesModel exec encode entries).1.length = entries.length
      ∧ (writeFilesModel exec encode entries).1.map (fun r => r.path)
          = entries.map (fun e => e.path))
    ∧ ((deleteFilesModel exec dpaths).1.length = dpaths.length
      ∧ (deleteFilesModel exec dpaths).1.map (fun r => r.path) = dpaths) := by
  have hr : (readFilesModel exec range? paths).1.map (fun r => r.path) = paths := by
    rw [readFilesModel_results]
    simp only [List.map_map]
    have : ((fun r : FileReadResult => r.path) ∘ fun p => (readItem exec range? p).1)
        = fun p => p := by
      funext p
      simp [Function.comp, readItem_path]
    rw [this]
    simp
  have hw : (writeFilesModel exec encode entries).1.map (fun r => r.path)
      = entries.map (fun e => e.path) := by
    rw [writeFilesModel_results]
    simp only [List.map_map]
    congr 1
    funext e
    simp [Function.comp, writeItem_path]
  have hd : (deleteFilesModel exec dpaths).1.map (fun r => r.path) = dpaths := by
    unfold deleteFilesModel
    simp only [List.map_map]
    have := deleteFilesSpec_paths exec dpaths
    simpa [Function.comp] using this
  refine ⟨⟨?_, hr⟩, ⟨?_, hw⟩, ⟨?_, hd⟩⟩
  · have := congrArg List.length hr
    simpa using this
  · have := congrArg List.length hw
    simpa using this
  · have := congrArg List.length hd
    simpa using this

/-- C2: batch operations process items independently — the result list is
the pointwise image of a per-item function (so a failing item can neither
abort the batch nor change any other item's entry; the batch itself is a
total function and never throws on an item-level failure), and an item
whose underlying operation failed gets a non-null `error` in its own
entry. -/
theorem batchItemFailureIsolation (exec : ExecOracle)
    (encode : List Char → List Nat) (range? : Option String)
    (paths : List String) (entries : List FileWriteEntry) :
    ((readFilesModel exec range? paths).1
        = paths.map (fun p => (readItem exec range? p).1))
    ∧ ((writeFilesModel exec encode entries).1
        = entries.map (fun e => (writeItem exec encode e).1))
    ∧ (∀ p e, (readItemCore exec range? p).1 = .error e →
        ((readItem exec range? p).1).error ≠ none)
    ∧ (∀ ent e, (writeItemCore exec encode ent).1 = .error e →
        ((writeItem exec encode ent).1).error ≠ none) := by
  refine ⟨readFilesModel_results exec range? paths,
    writeFilesModel_results exec encode entries, ?_, ?_⟩
  · intro p e h
    unfold readItem
    rcases hc : readItemCore exec range? p with ⟨r, tr⟩
    rw [hc] at h
    simp only at h
    subst h
    simp
  · intro ent e h
    unfold writeItem
    rcases hc : writeItemCore exec encode ent with ⟨r, tr⟩
    rw [hc] at h
    simp only at h
    subst h
    simp

/-- Witness for C2 at a concrete failing batch. -/
theorem batchItemFailureIsolation_witness :
    ((readFilesModel failOracle none ["a", "b"]).1
        = ["a", "b"].map (fun p => (readItem failOracle none p).1))
    ∧ ((readItem failOracle none "a").1).error ≠ none := by
  refine ⟨(batchItemFailureIsolation failOracle (fun _ => [])
      none ["a", "b"] []).1, ?_⟩
  exact (batchItemFailureIsolation failOracle (fun _ => [])
      none ["a", "b"] []).2.2.1 "a" "boom" rfl

/-- C10: a failing batch item carries a fixed empty payload next to its
non-null error — `readFiles` records an empty byte array as that item's
content, `writeFiles` records `bytesWritten = 0`. -/
theorem batchFailureEntryPayload (exec : ExecOracle)
    (encode : List Char → List Nat) (range? : Option String) (p : String)
    (ent : FileWriteEntry) (e e' : Err) :
    ((readItemCore exec range? p).1 = .error e →
      (readItem exec range? p).1 = ⟨p, [], some e⟩)
    ∧ ((writeItemCore exec encode ent).1 = .error e' →
      (writeItem exec encode ent).1 = ⟨ent.path, 0, some e'⟩) := by
  constructor
  · intro h
    unfold readItem
    rcases hc : readItemCore exec range? p with ⟨r, tr⟩
    rw [hc] at h
    simp only at h
    subst h
    simp
  · intro h
    unfold writeItem
    rcases hc : writeItemCore exec encode ent with ⟨r, tr⟩
    rw [hc] at h
    simp only at h
    subst h
    simp

/-- Witness for C10 at a concrete failing read and write. -/
theorem batchFailureEntryPayload_witness :
    (readItem failOracle none "a").1 = ⟨"a", [], some "boom"⟩
    ∧ (writeItem failOracle (fun _ => []) ⟨"w", .bytes [1, 2]⟩).1
        = ⟨"w", 0, some "boom"⟩ := by
  exact ⟨(batchFailureEntryPayload failOracle (fun _ => []) none "a"
      ⟨"w", .bytes [1, 2]⟩ "boom" "boom").1 rfl,
    (batchFailureEntryPayload failOracle (fun _ => []) none "a"
      ⟨"w", .bytes [1, 2]⟩ "boom" "boom").2 rfl⟩

/-- C5: on an adapter without native streaming, `executeStream` performs
exactly one full `execute`, then invokes a registered `onStdout` handler at
most once (exactly when stdout is non-empty), a registered `onStderr`
handler at most once (exactly when stderr is non-empty), and a registered
`onComplete` handler exactly once with the buffered result; a handler for a
channel that produced no data — or one that was not registered — is never
invoked. -/
theorem executeStreamBufferedCallbacks (execute : String → ExecuteResult)
    (command : String) (h : StreamHandlersPresent) :
    ((executeStreamModel execute command h).filter (fun ev => ev.isExec)
        = [.exec command])
    ∧ ((executeStreamModel execute command h).filter (fun ev => ev.isStdout)
        = if h.onStdout && (execute command).stdout != "" then
            [.stdout (execute command).stdout] else [])
    ∧ ((executeStreamModel execute command h).filter (fun ev => ev.isStderr)
        = if h.onStderr && (execute command).stderr != "" then
            [.stderr (execute command).stderr] else [])
    ∧ ((executeStreamModel execute command h).filter (fun ev => ev.isComplete)
        = if h.onComplete then [.complete (execute command)] else []) := by
  simp only [executeStreamModel, List.filter_append]
  refine ⟨?_, ?_, ?_, ?_⟩ <;>
    rcases h with ⟨ho, he, hc, herr⟩ <;>
    cases ho <;> cases he <;> cases hc <;>
    by_cases hs : (execute command).stdout = "" <;>
    by_cases ht : (execute command).stderr = "" <;>
    simp [StreamEvent.isExec, StreamEvent.isStdout, StreamEvent.isStderr,
      StreamEvent.isComplete, List.filter, hs, ht]

/-- C7: on an adapter with no native support and no polyfill for the
operation, `pause`, `resume`, `executeBackground` and `interrupt` always
reject with a `FeatureNotSupportedError` whose `feature` field names the
attempted operation and whose `provider` field is the adapter's provider
id. -/
theorem unsupportedOpsRejectWithFeatureError (provider sessionId : String) :
    ((baseExecuteBackground provider).isOk = false
      ∧ errFeature (baseExecuteBackground provider) = some "executeBackground"
      ∧ errProvider (baseExecuteBackground provider) = some provider)
    ∧ ((baseInterrupt provider sessionId).isOk = false
      ∧ errFeature (baseInterrupt provider sessionId) = some "interrupt"
      ∧ errProvider (baseInterrupt provider sessionId) = some provider)
    ∧ (minimalPause.isOk = false
      ∧ errFeature minimalPause = some "pause"
      ∧ errProvider minimalPause = some "minimal")
    ∧ (minimalResume.isOk = false
      ∧ errFeature minimalResume = some "resume"
      ∧ errProvider minimalResume = some "minimal") := by
  refine ⟨⟨rfl, rfl, rfl⟩, ⟨rfl, rfl, rfl⟩, ⟨rfl, rfl, rfl⟩, rfl, rfl, rfl⟩

/-- C6 counterexample: `BaseSandboxAdapter.ping` is *not* exception-free on
every adapter — when the polyfill service has been removed (as the
repository's own `NoPolyfillAdapter` test subclass does),
`requirePolyfillService('ping', ...)` makes `ping()` reject with a
`FeatureNotSupportedError` instead of returning `false`. -/
theorem basePingThrowsWithoutPolyfill :
    basePing "fallback" none
      = .error ⟨"Health check not supported by this provider", "ping",
          "fallback"⟩
    ∧ (basePing "fallback" none).isOk = false := ⟨rfl, rfl⟩

/-- C6 (amended): the provider-native `ping` implementations
(FastGPT/OpenSandbox) and the base adapter's `ping` whenever a polyfill
service is present return a boolean and never throw — every underlying
failure collapses to `false`; only when the polyfill service has been
removed does the base `ping` reject, with a
`FeatureNotSupportedError('ping', provider)`. -/
theorem pingCollapsesFailuresToFalse (provider : String)
    (outcome : Except Err ExecuteResult) (e : Err) (b : Bool) :
    (providerPing (.ok b) = b)
    ∧ (providerPing (.error e) = false)
    ∧ (basePing provider (some outcome) = .ok (polyfillPing outcome))
    ∧ (polyfillPing (.error e) = false)
    ∧ (errFeature (basePing provider none) = some "ping"
      ∧ errProvider (basePing provider none) = some provider) := by
  exact ⟨rfl, rfl, rfl, rfl, rfl, rfl⟩

/-! ### waitUntilReady lemmas -/

theorem waitUntilReadyLoop_timeout (pings : Nat → Bool) (id : String)
    (t : Nat) (hall : ∀ j, j * 1000 < t → pings j = false) :
    ∀ d k, (t + 999) / 1000 - k = d → k ≤ (t + 999) / 1000 →
      waitUntilReadyLoop pings id t k = (.error ⟨id, t⟩, (t + 999) / 1000) := by
  intro d
  induction d with
  | zero =>
    intro k hd hk
    have hk' : k = (t + 999) / 1000 := by omega
    have hge : ¬ k * 1000 < t := by omega
    rw [waitUntilReadyLoop, if_neg hge, hk']
  | succ m ih =>
    intro k hd hk
    have hlt : k * 1000 < t := by omega
    rw [waitUntilReadyLoop, if_pos hlt, hall k hlt]
    simp only [Bool.false_eq_true, if_false]
    exact ih (k + 1) (by omega) (by omega)

theorem waitUntilReadyLoop_firstTrue (pings : Nat → Bool) (id : String)
    (t k : Nat) (hk : k * 1000 < t) (htrue : pings k = true)
    (hprev : ∀ j, j < k → pings j = false) :
    ∀ d m, k - m = d → m ≤ k →
      waitUntilReadyLoop pings id t m = (.ok (), k + 1) := by
  intro d
  induction d with
  | zero =>
    intro m hd hm
    have hm' : m = k := by omega
    subst hm'
    rw [waitUntilReadyLoop, if_pos hk, htrue]
    simp
  | succ i ih =>
    intro m hd hm
    have hmk : m < k := by omega
    have hmlt : m * 1000 < t := by
      have : m * 1000 ≤ k * 1000 := Nat.mul_le_mul_right 1000 (by omega)
      omega
    rw [waitUntilReadyLoop, if_pos hmlt, hprev m hmk]
    simp only [Bool.false_eq_true, if_false]
    exact ih (m + 1) (by omega) (by omega)

/-- C4: `waitUntilReady(timeoutMs)` polls `ping()` at the fixed 1000 ms
interval (in the embedding's time model a ping is instantaneous and each
`sleep(1000)` advances the clock, so the `k`-th ping happens at elapsed
`k * 1000` ms and the loop guard `elapsed < timeoutMs` admits exactly
`⌈timeoutMs / 1000⌉` attempts).  If every admitted ping is `false` the call
throws `SandboxReadyTimeoutError` carrying the sandbox id and the
configured timeout after all `⌈timeoutMs / 1000⌉` attempts; if the `k`-th
ping is the first `true` one the call returns successfully right after it,
having made exactly `k + 1` ping calls. -/
theorem waitUntilReadyPollsAndTimesOut (pings : Nat → Bool) (id : String)
    (t : Nat) :
    ((∀ j, j * 1000 < t → pings j = false) →
      waitUntilReady pings id t = (.error ⟨id, t⟩, (t + 999) / 1000))
    ∧ (∀ k, k * 1000 < t → pings k = true → (∀ j, j < k → pings j = false) →
      waitUntilReady pings id t = (.ok (), k + 1)) := by
  constructor
  · intro hall
    exact waitUntilReadyLoop_timeout pings id t hall _ 0 rfl (by omega)
  · intro k hk htrue hprev
    exact waitUntilReadyLoop_firstTrue pings id t k hk htrue hprev k 0 rfl
      (by omega)

/-- Witness for C4: with a 5000 ms budget and a ping that first succeeds on
its second call, `waitUntilReady` returns success after exactly 2 pings;
with all pings failing and a 2500 ms budget it times out with the error
carrying the id and the budget after 3 pings. -/
theorem waitUntilReadyPollsAndTimesOut_witness :
    waitUntilReady (fun k => decide (k = 1)) "sandbox-42" 5000 = (.ok (), 2)
    ∧ waitUntilReady (fun _ => false) "sandbox-42" 2500
        = (.error ⟨"sandbox-42", 2500⟩, 3) := by
  constructor
  · exact (waitUntilReadyPollsAndTimesOut (fun k => decide (k = 1))
      "sandbox-42" 5000).2 1 (by decide) (by decide) (by decide)
  · exact (waitUntilReadyPollsAndTimesOut (fun _ => false)
      "sandbox-42" 2500).1 (fun j _ => rfl)

/-! ### JS string lemmas -/

theorem jsSplit_ne_nil (sep : Char) : ∀ cs : List Char, jsSplit sep cs ≠ []
  | [] => by simp [jsSplit]
  | c :: rest => by
    simp only [jsSplit]
    split
    · simp
    · rcases h : jsSplit sep rest with _ | ⟨hd, tl⟩ <;> simp

theorem jsSplit_no_sep (sep : Char) :
    ∀ cs : List Char, sep ∉ cs → jsSplit sep cs = [cs]
  | [], _ => rfl
  | c :: rest, h => by
    have hc : ¬ c = sep := fun hc => h (by simp [hc])
    have hrest : sep ∉ rest := fun hr => h (List.mem_cons_of_mem _ hr)
    simp only [jsSplit, if_neg hc, jsSplit_no_sep sep rest hrest]

theorem jsSplit_append_sep (sep : Char) :
    ∀ xs ys : List Char, sep ∉ xs →
      jsSplit sep (xs ++ sep :: ys) = xs :: jsSplit sep ys
  | [], ys, _ => by simp [jsSplit]
  | x :: xs, ys, h => by
    have hx : ¬ x = sep := fun hc => h (by simp [hc])
    have hxs : sep ∉ xs := fun hr => h (List.mem_cons_of_mem _ hr)
    simp only [List.cons_append, jsSplit, if_neg hx, List.append_eq,
      jsSplit_append_sep sep xs ys hxs]

theorem natDigits_ne_nil (n : Nat) : natDigits n ≠ [] := by
  rw [natDigits]
  split <;> simp

theorem isDigitChar_digit (k : Nat) (hk : k < 10) :
    isDigitChar (Char.ofNat (48 + k)) = true := by
  interval_cases k <;> decide

theorem isDigitChar_natDigits (n : Nat) :
    ∀ c ∈ natDigits n, isDigitChar c = true := by
  induction n using Nat.strong_induction_on with
  | _ n ih =>
    rw [natDigits]
    split
    · next h =>
      intro c hc
      simp only [List.mem_singleton] at hc
      subst hc
      exact isDigitChar_digit n h
    · next h =>
      intro c hc
      rcases List.mem_append.mp hc with h1 | h2
      · exact ih (n / 10) (Nat.div_lt_self (by omega) (by omega)) c h1
      · simp only [List.mem_singleton] at h2
        subst h2
        exact isDigitChar_digit (n % 10) (Nat.mod_lt _ (by omega))

theorem digit_not_special (c : Char) (hc : isDigitChar c = true) :
    c ≠ '-' ∧ c ≠ '+' ∧ jsIsSpace c = false := by
  refine ⟨?_, ?_, ?_⟩
  · intro h
    subst h
    exact absurd hc (by decide)
  · intro h
    subst h
    exact absurd hc (by decide)
  · by_contra h
    simp only [Bool.not_eq_false, jsIsSpace, Bool.or_eq_true,
      decide_eq_true_eq] at h
    rcases h with (((((h | h) | h) | h) | h) | h) <;> subst h <;>
      exact absurd hc (by decide)

theorem toNat_digitChar (k : Nat) (hk : k < 10) :
    (Char.ofNat (48 + k)).toNat = 48 + k := by
  interval_cases k <;> decide

theorem digitsVal_append (xs : List Char) (c : Char) :
    digitsVal (xs ++ [c]) = digitsVal xs * 10 + (c.toNat - 48) := by
  simp [digitsVal, List.foldl_append]

theorem digitsVal_natDigits (n : Nat) : digitsVal (natDigits n) = n := by
  induction n using Nat.strong_induction_on with
  | _ n ih =>
    rw [natDigits]
    split
    · next h =>
      simp [digitsVal, toNat_digitChar n h]
    · next h =>
      rw [digitsVal_append,
        ih (n / 10) (Nat.div_lt_self (by omega) (by omega)),
        toNat_digitChar (n % 10) (Nat.mod_lt _ (by omega))]
      omega

theorem jsParseInt_natDigits (n : Nat) :
    jsParseInt (natDigits n) = some (n : Int) := by
  have hdig := isDigitChar_natDigits n
  rcases hd : natDigits n with _ | ⟨c, rest⟩
  · exact absurd hd (natDigits_ne_nil n)
  · rw [hd] at hdig
    have hc : isDigitChar c = true := hdig c (by simp)
    obtain ⟨hminus, hplus, hspace⟩ := digit_not_special c hc
    have hval : digitsVal (c :: rest) = n := by
      rw [← hd, digitsVal_natDigits]
    have htake : List.takeWhile isDigitChar (c :: rest) = c :: rest :=
      List.takeWhile_eq_self_iff.mpr hdig
    rw [jsParseInt, List.dropWhile_cons_of_neg (by simp [hspace])]
    simp only [if_neg hminus, if_neg hplus, parseLeadingDigits, htake]
    simp [hval]

theorem not_minus_mem_natDigits (m : Nat) : '-' ∉ natDigits m := by
  intro hmem
  exact absurd (isDigitChar_natDigits m '-' hmem) (by decide)

theorem isEmpty_natDigits (m : Nat) : (natDigits m).isEmpty = false := by
  rcases h : natDigits m with _ | ⟨c, rest⟩
  · exact absurd h (natDigits_ne_nil m)
  · rfl

theorem jsSplit_rangeStr (o e : Nat) :
    jsSplit '-' (rangeStr o e).data = [natDigits o, natDigits e] := by
  show jsSplit '-' (natDigits o ++ '-' :: natDigits e) = _
  rw [jsSplit_append_sep '-' _ _ (not_minus_mem_natDigits o),
    jsSplit_no_sep '-' _ (not_minus_mem_natDigits e)]

theorem readItem_rangeStr (exec : ExecOracle) (path : String) (o e : Nat)
    (hoe : o < e) :
    readItem exec (some (rangeStr o e)) path
      = (match exec (.rangeRead path o (some e)) with
         | .ok c => ⟨path, c, none⟩
         | .error er => ⟨path, [], some er⟩,
         [PolyCmd.rangeRead path o (some e)]) := by
  have hcond : (decide (0 ≤ (o : Int))
      && (some (e : Int)).all (fun x => decide ((o : Int) < x))) = true := by
    simp [Option.all]
    exact_mod_cast hoe
  unfold readItem readItemCore
  simp only [jsSplit_rangeStr, List.headI, List.getElem?_cons_succ,
    List.getElem?_cons_zero, jsParseInt_natDigits, isEmpty_natDigits,
    Bool.false_eq_true, if_false, readFileRangeSpec, hcond, if_true,
    Int.toNat_natCast]
  simp [Int.toNat_natCast]

/-- C3: for a `readFiles` call with a range option `"start-end"`: when both
endpoints are present (the part after the `-` is non-empty), the item fails
before any command is issued unless both endpoints parse (JS `parseInt`)
as non-negative integers with `start < end` — and when they do, exactly
one offset+length extraction command is issued; when the end is omitted
(`"start"` or `"start-"`), a start-to-EOF extraction command is issued and
under the spec's command semantics the item reads from `start` to the end
of the file. -/
theorem rangeValidationBeforeCommand (exec : ExecOracle)
    (fs : String → Option (List Nat)) (path r : String) :
    (∀ s0 ev rest, jsSplit '-' r.data = s0 :: ev :: rest → ev ≠ [] →
      (¬ ∃ s e : Int, jsParseInt s0 = some s ∧ jsParseInt ev = some e
          ∧ 0 ≤ s ∧ s < e) →
      (readItem exec (some r) path).2 = []
        ∧ ((readItem exec (some r) path).1).error ≠ none)
    ∧ (∀ s0 ev rest (s e : Int), jsSplit '-' r.data = s0 :: ev :: rest →
        ev ≠ [] → jsParseInt s0 = some s → jsParseInt ev = some e →
        0 ≤ s → s < e →
        (readItem exec (some r) path).2
          = [PolyCmd.rangeRead path s.toNat (some e.toNat)])
    ∧ (∀ s0 (s : Int) content,
        (jsSplit '-' r.data = [s0] ∨ jsSplit '-' r.data = [s0, []]) →
        jsParseInt s0 = some s → 0 ≤ s → fs path = some content →
        (readItem (execOnFS fs) (some r) path).1
          = ⟨path, content.drop s.toNat, none⟩
        ∧ (readItem (execOnFS fs) (some r) path).2
          = [PolyCmd.rangeRead path s.toNat none]) := by
  refine ⟨?_, ?_, ?_⟩
  · intro s0 ev rest hsplit hev hinvalid
    have hevE : ev.isEmpty = false := by
      rcases ev with _ | ⟨c, cs⟩
      · exact absurd rfl hev
      · rfl
    unfold readItem readItemCore
    simp only [hsplit, List.headI, List.getElem?_cons_succ,
      List.getElem?_cons_zero, hevE, Bool.false_eq_true, if_false]
    rcases hs0 : jsParseInt s0 with _ | s
    · simp
    · rcases hevp : jsParseInt ev with _ | e
      · simp
      · have hcond : ¬ (0 ≤ s ∧ s < e) := fun hc =>
          hinvalid ⟨s, e, hs0, hevp, hc.1, hc.2⟩
        simp only [readFileRangeSpec]
        split
        · next hb =>
          simp only [Option.all, Bool.and_eq_true, decide_eq_true_eq] at hb
          exact absurd hb hcond
        · simp
  · intro s0 ev rest s e hsplit hev hs0 hevp hnn hlt
    have hevE : ev.isEmpty = false := by
      rcases ev with _ | ⟨c, cs⟩
      · exact absurd rfl hev
      · rfl
    unfold readItem readItemCore
    simp only [hsplit, List.headI, List.getElem?_cons_succ,
      List.getElem?_cons_zero, hevE, Bool.false_eq_true, if_false, hs0, hevp,
      readFileRangeSpec]
    split
    · rfl
    · next hb =>
      exfalso
      apply hb
      simp only [Option.all, Bool.and_eq_true, decide_eq_true_eq]
      exact ⟨hnn, hlt⟩
  · intro s0 s content hsplit hs0 hnn hfs
    have hcondb : (decide (0 ≤ s)
        && (none : Option Int).all (fun x => decide (s < x))) = true := by
      simp [Option.all, hnn]
    rcases hsplit with hsplit | hsplit <;>
    · unfold readItem readItemCore
      simp [hsplit, List.headI, hs0, readFileRangeSpec, hcondb, execOnFS,
        hfs, if_pos hnn]

/-- Witness for C3: the inverted range `"5-3"` fails before any command is
issued with a non-null error, and the open-ended range `"2-"` on a 4-byte
file reads bytes `[2, EOF)`. -/
theorem rangeValidationBeforeCommand_witness :
    ((readItem failOracle (some "5-3") "p").2 = []
      ∧ ((readItem failOracle (some "5-3") "p").1).error ≠ none)
    ∧ (readItem (execOnFS fsW) (some "2-") "f").1
        = ⟨"f", [12, 13], none⟩ := by
  constructor
  · apply (rangeValidationBeforeCommand failOracle fsW "p" "5-3").1
      ['5'] ['3'] [] (by decide) (by decide)
    rintro ⟨s, e, hs, he, hnn, hlt⟩
    rw [show jsParseInt ['5'] = some 5 from by decide] at hs
    rw [show jsParseInt ['3'] = some 3 from by decide] at he
    injection hs with hs
    injection he with he
    omega
  · exact ((rangeValidationBeforeCommand (execOnFS fsW) fsW "f" "2-").2.2
      ['2'] 2 [10, 11, 12, 13] (Or.inr (by decide)) (by decide) (by decide)
      (by decide)).1

theorem chunkSize_pos : 0 < chunkSize := by decide

theorem readChunkModel_rangeStr (exec : ExecOracle) (path : String)
    (o e : Nat) (hoe : o < e) :
    readChunkModel exec (some (rangeStr o e)) path
      = (exec (.rangeRead path o (some e)),
         [PolyCmd.rangeRead path o (some e)]) := by
  unfold readChunkModel
  simp only [readFilesModel, readItem_rangeStr exec path o e hoe]
  rcases h : exec (.rangeRead path o (some e)) with er | c <;> simp [h]

theorem rangesFromGo_stop (n : Nat) (offset : Nat) (h : ¬ offset < n) :
    ∀ fuel, rangesFromGo n offset fuel = []
  | 0 => rfl
  | fuel + 1 => by rw [rangesFromGo, if_neg h]

theorem streamLoopGo_ok (exec : ExecOracle) (path : String) (n : Nat) :
    ∀ fuel offset, n - offset ≤ fuel →
      (∀ p ∈ rangesFromGo n offset fuel,
        ∃ c, exec (.rangeRead path p.1 (some p.2)) = Except.ok c) →
      streamLoopGo exec path n offset fuel
        = ((rangesFromGo n offset fuel).map
            (fun p => okContent (exec (.rangeRead path p.1 (some p.2)))),
           none,
           (rangesFromGo n offset fuel).map
            (fun p => PolyCmd.rangeRead path p.1 (some p.2))) := by
  intro fuel
  induction fuel with
  | zero =>
    intro offset hfuel hok
    simp [streamLoopGo, rangesFromGo]
  | succ fuel ih =>
    intro offset hfuel hok
    by_cases h : offset < n
    · have hran : rangesFromGo n offset (fuel + 1)
          = (offset, min (offset + chunkSize) n)
              :: rangesFromGo n (offset + chunkSize) fuel := by
        rw [rangesFromGo, if_pos h]
      have hmem : (offset, min (offset + chunkSize) n)
          ∈ rangesFromGo n offset (fuel + 1) := by
        rw [hran]
        simp
      obtain ⟨c, hc⟩ := hok _ hmem
      have he : offset < min (offset + chunkSize) n := by
        have := chunkSize_pos
        omega
      have hok' : ∀ p ∈ rangesFromGo n (offset + chunkSize) fuel,
          ∃ c, exec (.rangeRead path p.1 (some p.2)) = Except.ok c := by
        intro p hp
        apply hok
        rw [hran]
        exact List.mem_cons_of_mem _ hp
      have hrec := ih (offset + chunkSize)
        (by have := chunkSize_pos; omega) hok'
      rw [streamLoopGo, if_pos h,
        readChunkModel_rangeStr exec path offset (min (offset + chunkSize) n) he,
        hc]
      simp only [hrec, consStream, hran]
      simp [okContent, hc]
    · rw [streamLoopGo, if_neg h, rangesFromGo, if_neg h]
      simp

theorem coversFrom_rangesFromGo (n : Nat) :
    ∀ fuel offset, n - offset ≤ fuel →
      coversFrom n offset (rangesFromGo n offset fuel) := by
  intro fuel
  induction fuel with
  | zero =>
    intro offset hfuel
    exact coversFrom.nil offset (by omega)
  | succ fuel ih =>
    intro offset hfuel
    rw [rangesFromGo]
    split
    · next h =>
      refine coversFrom.cons offset (min (offset + chunkSize) n) _
        (by have := chunkSize_pos; omega) (by omega) (by omega) ?_
      by_cases hc : offset + chunkSize ≤ n
      · have hmin : min (offset + chunkSize) n = offset + chunkSize := by
          omega
        rw [hmin]
        exact ih (offset + chunkSize) (by have := chunkSize_pos; omega)
      · have hmin : min (offset + chunkSize) n = n := by omega
        rw [hmin, rangesFromGo_stop n (offset + chunkSize) (by omega)]
        exact coversFrom.nil n (by omega)
    · next h =>
      exact coversFrom.nil offset (by omega)

/-- C8: `readFileStream(path)` first queries the file size (the `stat`
command heads every issued-command trace).  When the size `n` is known, it
issues one range read per fixed 64 KiB window such that the issued ranges
exactly partition `[0, n)` in ascending order (`coversFrom`), and yields
the chunks in that same order, one per issued range read (the generator is
pull-based, so the k-th range read is the k-th command, issued only after
the previous chunk was consumed).  When the size cannot be determined, it
performs exactly one unranged whole-file read. -/
theorem readFileStreamChunking (exec : ExecOracle) (path : String)
    (n : Nat) :
    (readFileStreamModel exec none path
      = (match exec (.fullRead path) with
         | .ok c => ([c], none, [PolyCmd.stat path, PolyCmd.fullRead path])
         | .error e =>
            ([], some e, [PolyCmd.stat path, PolyCmd.fullRead path])))
    ∧ coversFrom n 0 (rangesFor n)
    ∧ ((∀ p ∈ rangesFor n,
        ∃ c, exec (.rangeRead path p.1 (some p.2)) = Except.ok c) →
      readFileStreamModel exec (some n) path
        = ((rangesFor n).map
            (fun p => okContent (exec (.rangeRead path p.1 (some p.2)))),
           none,
           PolyCmd.stat path :: (rangesFor n).map
            (fun p => PolyCmd.rangeRead path p.1 (some p.2)))) := by
  refine ⟨?_, ?_, ?_⟩
  · simp only [readFileStreamModel, readChunkModel, readFilesModel,
      readItem, readItemCore, readFileSpec]
    rcases h : exec (.fullRead path) with er | c <;> simp [h]
  · exact coversFrom_rangesFromGo n (n - 0) 0 (le_refl _)
  · intro hok
    have hrec := streamLoopGo_ok exec path n (n - 0) 0 (le_refl _) hok
    simp only [readFileStreamModel, streamLoop, hrec]
    rfl

/-- Witness for C8: streaming a 4-byte file issues the size query and then
the single window `[0, 4)`, yielding the whole content in one chunk. -/
theorem readFileStreamChunking_witness :
    readFileStreamModel (execOnFS fsW) (some 4) "f"
      = ([[10, 11, 12, 13]], none,
         [PolyCmd.stat "f", PolyCmd.rangeRead "f" 0 (some 4)]) := by
  have h := (readFileStreamChunking (execOnFS fsW) "f" 4).2.2 ?hok
  case hok =>
    intro p hp
    have hr : rangesFor 4 = [(0, 4)] := by decide
    rw [hr] at hp
    simp only [List.mem_singleton] at hp
    subst hp
    exact ⟨[10, 11, 12, 13], rfl⟩
  rw [h]
  decide

/-- C9: a stream-typed write payload is fully drained into one in-memory
buffer equal to the concatenation of its chunks in arrival order
(`combineChunks` is the copy loop), then exactly one write command for that
buffer is issued (by the `writeFiles` stream branch and by
`writeFileStream`), and on success the reported `bytesWritten` equals the
sum of the chunk lengths; there is no per-chunk append write. -/
theorem streamWriteSingleBuffer (exec : ExecOracle)
    (encode : List Char → List Nat) (path : String)
    (chunks : List (List Nat)) :
    combineChunks chunks = chunks.flatten
    ∧ (writeItem exec encode ⟨path, .stream chunks⟩).2
        = [PolyCmd.write path chunks.flatten]
    ∧ (∀ out, exec (.write path chunks.flatten) = .ok out →
        (writeItem exec encode ⟨path, .stream chunks⟩).1
          = ⟨path, (chunks.map List.length).sum, none⟩)
    ∧ (writeFileStreamModel exec path chunks).2
        = [PolyCmd.write path chunks.flatten] := by
  have hcomb : combineChunks chunks = chunks.flatten := by
    have haux : ∀ l : List (List Nat), ∀ acc : List Nat,
        l.foldl (fun a c => a ++ c) acc = acc ++ l.flatten := by
      intro l
      induction l with
      | nil => intro acc; simp
      | cons c cs ih => intro acc; simp [ih]
    simpa using haux chunks []
  refine ⟨hcomb, ?_, ?_, ?_⟩
  · simp only [writeItem, writeItemCore, writeFileSpec, hcomb]
  · intro out hout
    simp only [writeItem, writeItemCore, writeFileSpec, hcomb, hout]
    simp [List.length_flatten]
  · simp only [writeFileStreamModel, writeFilesModel, writeItem,
      writeItemCore, writeFileSpec, hcomb]
    rcases h : exec (.write path chunks.flatten) with er | v <;> simp [h]

/-- Witness for C9: draining the chunks `[[1,2],[3]]` writes the single
buffer `[1,2,3]` once and reports 3 bytes written. -/
theorem streamWriteSingleBuffer_witness :
    (writeItem (execOnFS fsW) (fun _ => []) ⟨"w", .stream [[1, 2], [3]]⟩).1
        = ⟨"w", 3, none⟩
    ∧ (writeItem (execOnFS fsW) (fun _ => [])
        ⟨"w", .stream [[1, 2], [3]]⟩).2 = [PolyCmd.write "w" [1, 2, 3]] := by
  exact ⟨(streamWriteSingleBuffer (execOnFS fsW) (fun _ => []) "w"
      [[1, 2], [3]]).2.2.1 [] rfl,
    (streamWriteSingleBuffer (execOnFS fsW) (fun _ => []) "w"
      [[1, 2], [3]]).2.1⟩

end Sandbox
